import Mathlib

/-!
Verification of the alphagini bar-construction and backtest/metrics engine.

The definitions below are a shallow embedding of the Python source:
* `src/services/api/backtester/engine.py` (`run_backtest`, `_perf_metrics`),
* `src/services/api/app.py` (`periods_per_year`, `equity_sma_cross`,
  `metrics_from_equity`),
* `src/services/api/strategies/sma_cross.py` (`Strategy.generate_positions`),
* `src/tools/bars.py` (`_aggregate_chunk`, `time_to_volume_bars`,
  `time_to_dollar_bars`, `time_to_tick_bars`).

Real-valued pandas/numpy arithmetic is modelled exactly over `ℚ`; quantities
whose source computation takes a square root (standard deviation, Sharpe)
live in `ℝ` via `Real.sqrt`.  pandas `NaN` cells arise here only as the first
element of a `pct_change`, modelled by `fillna(0.0)` (a literal `0`) or by
`dropna` (the element is absent), exactly as each call site treats them.
-/

namespace Alphagini

/-! ## Simulator (engine.py, `run_backtest` lines 32–34)

`ret = test.pct_change().fillna(0.0)`; `strat_ret = pos.shift(1).fillna(0.0) * ret`;
`equity = (1 + strat_ret).cumprod() * req.initial_cash`. -/

/-- `series.pct_change().fillna(0.0)`: first element `0`, then
`cur / prev - 1` for each consecutive pair. -/
def pct_change_fill0 (xs : List ℚ) : List ℚ :=
  match xs with
  | [] => []
  | x :: rest => 0 :: List.zipWith (fun prev cur => cur / prev - 1) (x :: rest) rest

/-- `series.shift(1).fillna(0.0)`: a leading `0`, the last element dropped. -/
def shift1 (xs : List ℚ) : List ℚ :=
  match xs with
  | [] => []
  | x :: rest => 0 :: (x :: rest).dropLast

/-- `strat_ret = (pos.shift(1).fillna(0.0) * ret)` (next-bar execution). -/
def strat_ret (price pos : List ℚ) : List ℚ :=
  List.zipWith (fun a b => a * b) (shift1 pos) (pct_change_fill0 price)

/-- `series.cumprod()`: running products. -/
def cumprod : List ℚ → List ℚ
  | [] => []
  | x :: rest => x :: (cumprod rest).map (fun y => x * y)

/-- `equity = (1 + strat_ret).cumprod() * req.initial_cash` (engine.py line 34). -/
def run_equity (price pos : List ℚ) (cash : ℚ) : List ℚ :=
  (cumprod ((strat_ret price pos).map (fun r => 1 + r))).map (fun y => cash * y)

lemma length_pct_change_fill0 (xs : List ℚ) :
    (pct_change_fill0 xs).length = xs.length := by
  cases xs with
  | nil => rfl
  | cons x rest => simp [pct_change_fill0]

lemma length_shift1 (xs : List ℚ) : (shift1 xs).length = xs.length := by
  cases xs with
  | nil => rfl
  | cons x rest => simp [shift1]

lemma length_cumprod (xs : List ℚ) : (cumprod xs).length = xs.length := by
  induction xs with
  | nil => rfl
  | cons x rest ih => simp [cumprod, ih]

lemma length_strat_ret (price pos : List ℚ) (hlen : pos.length = price.length) :
    (strat_ret price pos).length = price.length := by
  simp [strat_ret, length_shift1, length_pct_change_fill0, hlen]

lemma length_run_equity (price pos : List ℚ) (cash : ℚ)
    (hlen : pos.length = price.length) :
    (run_equity price pos cash).length = price.length := by
  simp [run_equity, length_cumprod, length_strat_ret price pos hlen]

lemma getD_map (f : ℚ → ℚ) (l : List ℚ) (i : ℕ) (h : i < l.length) :
    (l.map f).getD i 0 = f (l.getD i 0) := by
  rw [List.getD_eq_getElem _ _ (by simpa using h), List.getD_eq_getElem _ _ h,
    List.getElem_map]

lemma getD_zipWith (f : ℚ → ℚ → ℚ) (as bs : List ℚ) (i : ℕ)
    (ha : i < as.length) (hb : i < bs.length) :
    (List.zipWith f as bs).getD i 0 = f (as.getD i 0) (bs.getD i 0) := by
  rw [List.getD_eq_getElem _ _ (by simp [List.length_zipWith]; omega),
    List.getD_eq_getElem _ _ ha, List.getD_eq_getElem _ _ hb, List.getElem_zipWith]

lemma cumprod_getD_zero (x : ℚ) (rest : List ℚ) :
    (cumprod (x :: rest)).getD 0 0 = x := rfl

lemma cumprod_getD_succ (ys : List ℚ) (i : ℕ) (h : i + 1 < ys.length) :
    (cumprod ys).getD (i + 1) 0 = (cumprod ys).getD i 0 * ys.getD (i + 1) 0 := by
  induction ys generalizing i with
  | nil => simp at h
  | cons x rest ih =>
    cases i with
    | zero =>
      cases rest with
      | nil => simp at h
      | cons y r =>
        simp [cumprod, List.getD_cons_succ, cumprod_getD_zero]
    | succ j =>
      have hj : j + 1 < rest.length := by simpa using h
      have hcp : j + 1 < (cumprod rest).length := by
        rw [length_cumprod]; exact hj
      have hcpj : j < (cumprod rest).length := by omega
      show (cumprod (x :: rest)).getD (j + 1 + 1) 0 =
        (cumprod (x :: rest)).getD (j + 1) 0 * (x :: rest).getD (j + 1 + 1) 0
      simp only [cumprod, List.getD_cons_succ]
      rw [getD_map _ _ _ hcp, getD_map _ _ _ hcpj, ih j hj]
      ring

lemma shift1_getD (xs : List ℚ) (i : ℕ) (h1 : 1 ≤ i) (h : i < xs.length) :
    (shift1 xs).getD i 0 = xs.getD (i - 1) 0 := by
  cases xs with
  | nil => simp at h
  | cons x rest =>
    obtain ⟨j, rfl⟩ : ∃ j, i = j + 1 := ⟨i - 1, by omega⟩
    simp only [List.length_cons] at h
    have hj : j < ((x :: rest).dropLast).length := by
      rw [List.length_dropLast]; simp only [List.length_cons]; omega
    have hj2 : j < (x :: rest).length := by simp only [List.length_cons]; omega
    simp only [shift1, List.getD_cons_succ, Nat.add_sub_cancel]
    rw [List.getD_eq_getElem _ _ hj, List.getD_eq_getElem _ _ hj2,
      List.getElem_dropLast]

lemma pct0_getD (xs : List ℚ) (i : ℕ) (h1 : 1 ≤ i) (h : i < xs.length) :
    (pct_change_fill0 xs).getD i 0 = xs.getD i 0 / xs.getD (i - 1) 0 - 1 := by
  cases xs with
  | nil => simp at h
  | cons x rest =>
    obtain ⟨j, rfl⟩ : ∃ j, i = j + 1 := ⟨i - 1, by omega⟩
    have hjr : j < rest.length := by simp at h; omega
    have hjx : j < (x :: rest).length := by simp; omega
    simp only [pct_change_fill0, List.getD_cons_succ, Nat.add_sub_cancel]
    rw [getD_zipWith _ _ _ _ hjx hjr]

/-- Modelled from the spec: the `buy_hold` PositionModel
(strategies/buy_hold.py is imported by the engine but is not under src/):
"constant 1.0 for every index from the first bar onward". -/
def buy_hold_positions (n : ℕ) : List ℚ := List.replicate n 1

lemma strat_ret_getD_zero (price pos : List ℚ)
    (hp : 1 ≤ price.length) (hq : 1 ≤ pos.length) :
    (strat_ret price pos).getD 0 0 = 0 := by
  cases price with
  | nil => simp at hp
  | cons p ps =>
    cases pos with
    | nil => simp at hq
    | cons q qs => simp [strat_ret, shift1, pct_change_fill0]

/-- C1: for every price series `p` with `n ≥ 1` points, aligned position series
`pos`, and initial cash `c`, the simulator equity series
(`equity = (1 + strat_ret).cumprod() * initial_cash`, engine.py lines 32–34)
has exactly `n` points, starts at `c`, and satisfies
`equity[i] = equity[i-1] * (1 + pos[i-1] * (p[i]/p[i-1] - 1))` for `1 ≤ i < n`;
in particular buy-and-hold (constant position `1`) on prices `[100, 110, 99]`
with cash `1000` yields equity `[1000, 1100, 990]`. -/
theorem C1_simulator_equity (price pos : List ℚ) (cash : ℚ)
    (hlen : pos.length = price.length) (hn : 1 ≤ price.length) :
    (run_equity price pos cash).length = price.length ∧
    (run_equity price pos cash).getD 0 0 = cash ∧
    (∀ i, 1 ≤ i → i < price.length →
      (run_equity price pos cash).getD i 0 =
        (run_equity price pos cash).getD (i - 1) 0 *
          (1 + pos.getD (i - 1) 0 * (price.getD i 0 / price.getD (i - 1) 0 - 1))) ∧
    run_equity [100, 110, 99] (buy_hold_positions 3) 1000 = [1000, 1100, 990] := by
  have hq : 1 ≤ pos.length := by omega
  have hsr : (strat_ret price pos).length = price.length :=
    length_strat_ret price pos hlen
  refine ⟨length_run_equity price pos cash hlen, ?_, ?_, ?_⟩
  · -- equity[0] = cash
    have h0 : 0 < ((strat_ret price pos).map (fun r => 1 + r)).length := by
      simp [hsr]; omega
    have hcp : 0 < (cumprod ((strat_ret price pos).map (fun r => 1 + r))).length := by
      rw [length_cumprod]; exact h0
    unfold run_equity
    rw [getD_map _ _ _ hcp]
    obtain ⟨y, ys, hy⟩ : ∃ y ys,
        (strat_ret price pos).map (fun r => 1 + r) = y :: ys := by
      cases hxs : (strat_ret price pos).map (fun r => 1 + r) with
      | nil => rw [hxs] at h0; simp at h0
      | cons y ys => exact ⟨y, ys, rfl⟩
    have hy0 : ((strat_ret price pos).map (fun r => 1 + r)).getD 0 0 = 1 := by
      rw [getD_map _ _ _ (by omega : 0 < (strat_ret price pos).length)]
      rw [strat_ret_getD_zero price pos hn hq]; norm_num
    rw [hy, cumprod_getD_zero]
    rw [hy] at hy0
    simp only [List.getD_cons_zero] at hy0
    rw [hy0, mul_one]
  · -- the compounding recurrence
    intro i h1 hi
    obtain ⟨j, rfl⟩ : ∃ j, i = j + 1 := ⟨i - 1, by omega⟩
    simp only [Nat.add_sub_cancel]
    have hys : ((strat_ret price pos).map (fun r => 1 + r)).length = price.length := by
      simp [hsr]
    have hcp : j + 1 < (cumprod ((strat_ret price pos).map (fun r => 1 + r))).length := by
      rw [length_cumprod, hys]; exact hi
    have hcpj : j < (cumprod ((strat_ret price pos).map (fun r => 1 + r))).length := by
      omega
    unfold run_equity
    rw [getD_map _ _ _ hcp, getD_map _ _ _ hcpj, cumprod_getD_succ _ j (by rw [hys]; exact hi)]
    have hsrj : j + 1 < (strat_ret price pos).length := by rw [hsr]; exact hi
    have hmap : ((strat_ret price pos).map (fun r => 1 + r)).getD (j + 1) 0 =
        1 + (strat_ret price pos).getD (j + 1) 0 := getD_map _ _ _ hsrj
    have hzip : (strat_ret price pos).getD (j + 1) 0 =
        (shift1 pos).getD (j + 1) 0 * (pct_change_fill0 price).getD (j + 1) 0 := by
      unfold strat_ret
      exact getD_zipWith _ _ _ _ (by rw [length_shift1, hlen]; exact hi)
        (by rw [length_pct_change_fill0]; exact hi)
    have hsh : (shift1 pos).getD (j + 1) 0 = pos.getD j 0 := by
      rw [shift1_getD pos (j + 1) (by omega) (by rw [hlen]; exact hi)]
      simp
    have hpc : (pct_change_fill0 price).getD (j + 1) 0 =
        price.getD (j + 1) 0 / price.getD j 0 - 1 := by
      rw [pct0_getD price (j + 1) (by omega) hi]; simp
    rw [hmap, hzip, hsh, hpc]
    ring
  · -- the worked buy-and-hold example
    show run_equity [100, 110, 99] (buy_hold_positions 3) 1000 = [1000, 1100, 990]
    simp only [buy_hold_positions, List.replicate, run_equity, strat_ret, shift1,
      pct_change_fill0, cumprod, List.dropLast, List.zipWith, List.map, List.tail]
    norm_num

/-- Concrete instance of `C1_simulator_equity`: the recurrence evaluated at
index 2 of the `[100, 110, 99]` buy-and-hold run. -/
theorem C1_simulator_equity_witness :
    (run_equity [100, 110, 99] [1, 1, 1] 1000).getD 2 0 =
      (run_equity [100, 110, 99] [1, 1, 1] 1000).getD 1 0 *
        (1 + ([1, 1, 1] : List ℚ).getD 1 0 *
          (([100, 110, 99] : List ℚ).getD 2 0 / ([100, 110, 99] : List ℚ).getD 1 0 - 1)) :=
  (C1_simulator_equity [100, 110, 99] [1, 1, 1] 1000 (by decide)
    (by decide)).2.2.1 2 (by decide) (by decide)

/-! ## BarBuilder (tools/bars.py)

A source row of the input DataFrame (indexed by timestamp, columns
`open, high, low, close, volume`, optionally `trades` and `vwap`).  The
`open` column is named `op` (`open` is a Lean keyword).  The claims quantify
over series already in strictly increasing timestamp order, on which the
source's `df.sort_index()` is the identity, so the builders below consume the
list as given. -/
structure Bar where
  ts : ℤ
  op : ℚ
  high : ℚ
  low : ℚ
  close : ℚ
  volume : ℚ
  trades : ℚ
  vwap : ℚ
deriving DecidableEq

/-- An output row of a builder: the dict built by `_aggregate_chunk`, with the
index set to `ts_close` and the `ts_open`/`ts_close` columns dropped
(bars.py lines 74–78); the tick builder's extra `n_ticks` column is not
modelled since no claim concerns it. -/
structure OutBar where
  ts : ℤ
  op : ℚ
  high : ℚ
  low : ℚ
  close : ℚ
  volume : ℚ
  n_src_bars : ℕ
deriving DecidableEq

/-- `_aggregate_chunk` (bars.py lines 26–39): `{}` on an empty chunk, else
first open, max high, min low, last close, summed volume, row count, and
the last source timestamp (which becomes the output index). -/
def aggregate_chunk : List Bar → Option OutBar
  | [] => none
  | b :: rest => some {
      ts := (rest.getLastD b).ts
      op := b.op
      high := (rest.map Bar.high).foldl max b.high
      low := (rest.map Bar.low).foldl min b.low
      close := (rest.getLastD b).close
      volume := b.volume + (rest.map Bar.volume).sum
      n_src_bars := rest.length + 1 }

/-- The accumulation loop shared verbatim by `time_to_volume_bars`
(lines 62–72), `time_to_dollar_bars` (lines 99–109) and `time_to_tick_bars`
(lines 139–153): add the current row's weight `w b` to `cum`; once
`cum ≥ threshold`, close the chunk accumulated since the last close and reset
`cum` to `0`; if `keep_tail`, emit the final partial chunk. -/
def chunksAux (w : Bar → ℚ) (th : ℚ) (keepTail : Bool) :
    List Bar → List Bar → ℚ → List (List Bar)
  | [], cur, _ => if keepTail ∧ cur ≠ [] then [cur.reverse] else []
  | b :: rest, cur, cum =>
    if th ≤ cum + w b then
      (b :: cur).reverse :: chunksAux w th keepTail rest [] 0
    else
      chunksAux w th keepTail rest (b :: cur) (cum + w b)

/-- `time_to_volume_bars(df, vol_threshold, keep_tail)`: weight = `volume`. -/
def time_to_volume_bars (bars : List Bar) (vol_threshold : ℚ) (keep_tail : Bool) :
    List OutBar :=
  (chunksAux Bar.volume vol_threshold keep_tail bars [] 0).filterMap aggregate_chunk

/-- `price_basis` choices of `_typical_price` (bars.py lines 13–24). -/
inductive PriceBasis
  | close
  | hlc3
  | ohlc4
  | vwap
deriving DecidableEq

/-- `_typical_price(df, basis)`. -/
def typical_price (basis : PriceBasis) (b : Bar) : ℚ :=
  match basis with
  | .close => b.close
  | .hlc3 => (b.high + b.low + b.close) / 3
  | .ohlc4 => (b.op + b.high + b.low + b.close) / 4
  | .vwap => b.vwap

/-- `time_to_dollar_bars`: weight = `_typical_price(df, price_basis) * volume`. -/
def time_to_dollar_bars (bars : List Bar) (dollar_threshold : ℚ)
    (price_basis : PriceBasis) (keep_tail : Bool) : List OutBar :=
  (chunksAux (fun b => typical_price price_basis b * b.volume) dollar_threshold
    keep_tail bars [] 0).filterMap aggregate_chunk

/-- `time_to_tick_bars`: weight = the `trades` column. -/
def time_to_tick_bars (bars : List Bar) (ticks_per_bar : ℚ) (keep_tail : Bool) :
    List OutBar :=
  (chunksAux Bar.trades ticks_per_bar keep_tail bars [] 0).filterMap aggregate_chunk

lemma chunksAux_join_keep (w : Bar → ℚ) (th : ℚ) :
    ∀ (bars cur : List Bar) (cum : ℚ),
      (chunksAux w th true bars cur cum).flatten = cur.reverse ++ bars := by
  intro bars
  induction bars with
  | nil =>
    intro cur cum
    by_cases hcur : cur = []
    · subst hcur; simp [chunksAux]
    · simp [chunksAux, hcur]
  | cons b rest ih =>
    intro cur cum
    by_cases hth : th ≤ cum + w b
    · simp [chunksAux, hth, ih [] 0]
    · simp [chunksAux, hth, ih (b :: cur) (cum + w b)]

lemma chunksAux_ne_nil (w : Bar → ℚ) (th : ℚ) (keep : Bool) :
    ∀ (bars cur : List Bar) (cum : ℚ) (c : List Bar),
      c ∈ chunksAux w th keep bars cur cum → c ≠ [] := by
  intro bars
  induction bars with
  | nil =>
    intro cur cum c hc
    by_cases hcur : keep ∧ cur ≠ []
    · simp only [chunksAux, if_pos hcur, List.mem_singleton] at hc
      subst hc
      simpa using hcur.2
    · simp [chunksAux, if_neg hcur] at hc
  | cons b rest ih =>
    intro cur cum c hc
    by_cases hth : th ≤ cum + w b
    · simp only [chunksAux, if_pos hth, List.mem_cons] at hc
      rcases hc with rfl | hc
      · simp
      · exact ih [] 0 c hc
    · simp only [chunksAux, if_neg hth] at hc
      exact ih (b :: cur) (cum + w b) c hc

lemma chunksAux_chunk_run (w : Bar → ℚ) (th : ℚ) (keep : Bool) :
    ∀ (bars cur : List Bar) (cum : ℚ) (c : List Bar),
      c ∈ chunksAux w th keep bars cur cum →
      ∃ pre suf, cur.reverse ++ bars = pre ++ c ++ suf := by
  intro bars
  induction bars with
  | nil =>
    intro cur cum c hc
    by_cases hcur : keep ∧ cur ≠ []
    · simp only [chunksAux, if_pos hcur, List.mem_singleton] at hc
      exact ⟨[], [], by simp [hc]⟩
    · simp [chunksAux, if_neg hcur] at hc
  | cons b rest ih =>
    intro cur cum c hc
    by_cases hth : th ≤ cum + w b
    · simp only [chunksAux, if_pos hth, List.mem_cons] at hc
      rcases hc with rfl | hc
      · refine ⟨[], rest, ?_⟩
        simp [List.reverse_cons]
      · obtain ⟨pre, suf, hps⟩ := ih [] 0 c hc
        simp only [List.reverse_nil, List.nil_append] at hps
        refine ⟨cur.reverse ++ [b] ++ pre, suf, ?_⟩
        simp [hps, List.append_assoc]
    · simp only [chunksAux, if_neg hth] at hc
      obtain ⟨pre, suf, hps⟩ := ih (b :: cur) (cum + w b) c hc
      simp only [List.reverse_cons] at hps
      refine ⟨pre, suf, ?_⟩
      simpa [List.append_assoc] using hps

lemma chunksAux_keep_spec (w : Bar → ℚ) (th : ℚ) (hth : 0 < th) :
    ∀ (bars cur : List Bar) (cum : ℚ),
      cum = (cur.map w).sum →
      (∀ k, k ≤ cur.length → ((cur.reverse.take k).map w).sum < th) →
      ((∀ c ∈ (chunksAux w th true bars cur cum).dropLast, th ≤ (c.map w).sum) ∧
       (∀ c ∈ chunksAux w th true bars cur cum, ∀ k, k < c.length →
          ((c.take k).map w).sum < th)) := by
  intro bars
  induction bars with
  | nil =>
    intro cur cum hcum hpre
    constructor
    · intro c hc
      by_cases hcur : cur ≠ []
      · simp [chunksAux, hcur] at hc
      · simp [chunksAux, hcur] at hc
    · intro c hc k hk
      by_cases hcur : cur ≠ []
      · simp [chunksAux, hcur] at hc
        subst hc
        exact hpre k (by simpa using Nat.le_of_lt hk)
      · simp [chunksAux, hcur] at hc
  | cons b rest ih =>
    intro cur cum hcum hpre
    by_cases hcross : th ≤ cum + w b
    · -- the chunk closes at this row
      have ih0 := ih [] 0 (by simp)
        (by intro k hk; simp only [List.length_nil, Nat.le_zero] at hk; subst hk
            simpa using hth)
      have hsum : (((b :: cur).reverse).map w).sum = cum + w b := by
        rw [List.map_reverse, List.sum_reverse]
        simp [hcum, add_comm]
      have hprefix : ∀ k, k < ((b :: cur).reverse).length →
          ((((b :: cur).reverse).take k).map w).sum < th := by
        intro k hk
        have hk2 : k ≤ cur.length := by
          simpa using Nat.lt_succ_iff.mp (by simpa using hk)
        rw [List.reverse_cons, List.take_append_of_le_length (by simpa using hk2)]
        exact hpre k hk2
      constructor
      · intro c hc
        simp only [chunksAux, if_pos hcross] at hc
        rcases hcc : chunksAux w th true rest [] 0 with _ | ⟨c0, cs⟩
        · rw [hcc] at hc; simp at hc
        · rw [hcc] at hc
          rw [List.dropLast_cons₂] at hc
          rcases List.mem_cons.mp hc with rfl | hc
          · rw [hsum]; exact hcross
          · have := ih0.1
            rw [hcc] at this
            exact this c hc
      · intro c hc k hk
        simp only [chunksAux, if_pos hcross, List.mem_cons] at hc
        rcases hc with rfl | hc
        · exact hprefix k hk
        · exact ih0.2 c hc k hk
    · -- keep accumulating
      have hlt : cum + w b < th := lt_of_not_le hcross
      have hcum2 : cum + w b = ((b :: cur).map w).sum := by
        simp [hcum, add_comm]
      have hpre2 : ∀ k, k ≤ (b :: cur).length →
          ((((b :: cur).reverse).take k).map w).sum < th := by
        intro k hk
        rw [List.reverse_cons]
        rcases Nat.lt_or_ge k (cur.length + 1) with hk1 | hk1
        · have hk2 : k ≤ cur.length := Nat.lt_succ_iff.mp hk1
          rw [List.take_append_of_le_length (by simpa using hk2)]
          exact hpre k hk2
        · have hk2 : k = cur.length + 1 := by simpa using Nat.le_antisymm (by simpa using hk) hk1
          subst hk2
          rw [List.take_of_length_le (by simp)]
          calc ((cur.reverse ++ [b]).map w).sum = ((b :: cur).map w).sum := by
                rw [List.map_append, List.sum_append, List.map_reverse,
                  List.sum_reverse]
                simp [add_comm]
            _ < th := by rw [← hcum2]; exact hlt
      simpa only [chunksAux, if_neg hcross] using
        ih (b :: cur) (cum + w b) hcum2 hpre2

/-- One source bar of the worked ten-bar example: timestamp `t`, all prices
`1`, volume `50`. -/
def exBar (t : ℤ) : Bar :=
  { ts := t, op := 1, high := 1, low := 1, close := 1, volume := 50,
    trades := 1, vwap := 1 }

/-- The spec's worked example input: ten bars of volume `50`. -/
def tenBars : List Bar :=
  [exBar 0, exBar 1, exBar 2, exBar 3, exBar 4, exBar 5, exBar 6, exBar 7,
   exBar 8, exBar 9]

/-- C2: volume-bar construction (bars.py lines 62–72) partitions the input
into the runs it closes: with `keep_tail` the closed runs concatenate back to
the whole input, every run except possibly the final kept tail has
accumulated volume `≥ threshold`, and within every run each proper prefix
sums to `< threshold` (the accumulator restarts from zero, so no overshoot is
carried forward and a run closes at the first crossing index); ten source
bars of volume 50 with threshold 120 and `keep_tail` produce four output bars
folding `[3, 3, 3, 1]` source bars. -/
theorem C2_volume_bar_accumulation (bars : List Bar) (th : ℚ) (hth : 0 < th) :
    (chunksAux Bar.volume th true bars [] 0).flatten = bars ∧
    (∀ c ∈ (chunksAux Bar.volume th true bars [] 0).dropLast,
      th ≤ (c.map Bar.volume).sum) ∧
    (∀ c ∈ chunksAux Bar.volume th true bars [] 0, ∀ k, k < c.length →
      ((c.take k).map Bar.volume).sum < th) ∧
    (time_to_volume_bars tenBars 120 true).map OutBar.n_src_bars = [3, 3, 3, 1] := by
  have hspec := chunksAux_keep_spec Bar.volume th hth bars [] 0 (by simp)
    (by intro k hk; simp only [List.length_nil, Nat.le_zero] at hk; subst hk
        simpa using hth)
  refine ⟨by simpa using chunksAux_join_keep Bar.volume th bars [] 0,
    hspec.1, hspec.2, ?_⟩
  show (time_to_volume_bars tenBars 120 true).map OutBar.n_src_bars = [3, 3, 3, 1]
  norm_num [time_to_volume_bars, tenBars, exBar, chunksAux, aggregate_chunk,
    List.filterMap]

/-- Concrete instance of `C2_volume_bar_accumulation` at threshold `120`:
the ten-bar example partitions into its runs. -/
theorem C2_volume_bar_accumulation_witness :
    (chunksAux Bar.volume 120 true tenBars [] 0).flatten = tenBars :=
  (C2_volume_bar_accumulation tenBars 120 (by norm_num)).1

lemma le_foldl_max (l : List ℚ) : ∀ a : ℚ, a ≤ l.foldl max a := by
  induction l with
  | nil => intro a; simp
  | cons x rest ih =>
    intro a
    exact le_trans (le_max_left a x) (by simpa using ih (max a x))

lemma mem_le_foldl_max (l : List ℚ) : ∀ (a : ℚ), ∀ x ∈ l, x ≤ l.foldl max a := by
  induction l with
  | nil => intro a x hx; simp at hx
  | cons y rest ih =>
    intro a x hx
    rcases List.mem_cons.mp hx with rfl | hx
    · exact le_trans (le_max_right a x) (by simpa using le_foldl_max rest (max a x))
    · simpa using ih (max a y) x hx

lemma foldl_max_eq_or_mem (l : List ℚ) : ∀ a : ℚ,
    l.foldl max a = a ∨ l.foldl max a ∈ l := by
  induction l with
  | nil => intro a; left; rfl
  | cons x rest ih =>
    intro a
    rcases ih (max a x) with h | h
    · rcases max_choice a x with hm | hm
      · left; simpa [hm] using h
      · right; rw [List.foldl_cons, h, hm]; simp
    · right; simpa using Or.inr h

lemma foldl_min_le (l : List ℚ) : ∀ a : ℚ, l.foldl min a ≤ a := by
  induction l with
  | nil => intro a; simp
  | cons x rest ih =>
    intro a
    exact le_trans (by simpa using ih (min a x)) (min_le_left a x)

lemma foldl_min_le_mem (l : List ℚ) : ∀ (a : ℚ), ∀ x ∈ l, l.foldl min a ≤ x := by
  induction l with
  | nil => intro a x hx; simp at hx
  | cons y rest ih =>
    intro a x hx
    rcases List.mem_cons.mp hx with rfl | hx
    · exact le_trans (by simpa using foldl_min_le rest (min a x)) (min_le_right a x)
    · simpa using ih (min a y) x hx

lemma foldl_min_eq_or_mem (l : List ℚ) : ∀ a : ℚ,
    l.foldl min a = a ∨ l.foldl min a ∈ l := by
  induction l with
  | nil => intro a; left; rfl
  | cons x rest ih =>
    intro a
    rcases ih (min a x) with h | h
    · rcases min_choice a x with hm | hm
      · left; simpa [hm] using h
      · right; rw [List.foldl_cons, h, hm]; simp
    · right; simpa using Or.inr h

lemma getLast?_map_cons {α β : Type} (f : α → β) (b : α) (rest : List α) :
    ((b :: rest).map f).getLast? = some (f (rest.getLastD b)) := by
  induction rest generalizing b with
  | nil => simp
  | cons y r ih =>
    rw [List.map_cons, List.map_cons, List.getLast?_cons_cons, ← List.map_cons,
      ih y, List.getLastD_cons]

/-- C3: every output bar of any of the three builders aggregates one
non-empty run of consecutive source bars (bars.py `_aggregate_chunk`,
lines 26–39): open = first source open, high = max of source highs,
low = min of source lows, close = last source close, volume = sum of source
volumes, the count of folded source bars, and the timestamp of the *last*
source bar of the run. -/
theorem C3_chunk_aggregation (bars : List Bar) (th : ℚ) (basis : PriceBasis)
    (kt : Bool) (a : OutBar)
    (ha : a ∈ time_to_volume_bars bars th kt ∨
      a ∈ time_to_dollar_bars bars th basis kt ∨
      a ∈ time_to_tick_bars bars th kt) :
    ∃ run : List Bar, run ≠ [] ∧ (∃ pre suf, bars = pre ++ run ++ suf) ∧
      aggregate_chunk run = some a ∧
      (run.map Bar.op).head? = some a.op ∧
      (∀ b ∈ run, b.high ≤ a.high) ∧ a.high ∈ run.map Bar.high ∧
      (∀ b ∈ run, a.low ≤ b.low) ∧ a.low ∈ run.map Bar.low ∧
      (run.map Bar.close).getLast? = some a.close ∧
      a.volume = (run.map Bar.volume).sum ∧
      a.n_src_bars = run.length ∧
      (run.map Bar.ts).getLast? = some a.ts := by
  have key : ∀ (w : Bar → ℚ),
      a ∈ (chunksAux w th kt bars [] 0).filterMap aggregate_chunk →
      ∃ run : List Bar, run ≠ [] ∧ (∃ pre suf, bars = pre ++ run ++ suf) ∧
        aggregate_chunk run = some a := by
    intro w hmem
    obtain ⟨c, hc, hagg⟩ := List.mem_filterMap.mp hmem
    obtain ⟨pre, suf, hps⟩ := chunksAux_chunk_run w th kt bars [] 0 c hc
    exact ⟨c, chunksAux_ne_nil w th kt bars [] 0 c hc,
      ⟨pre, suf, by simpa using hps⟩, hagg⟩
  have hrun : ∃ run : List Bar, run ≠ [] ∧ (∃ pre suf, bars = pre ++ run ++ suf) ∧
      aggregate_chunk run = some a := by
    rcases ha with h | h | h
    · exact key Bar.volume h
    · exact key (fun b => typical_price basis b * b.volume) h
    · exact key Bar.trades h
  obtain ⟨run, hne, hinf, hagg⟩ := hrun
  obtain ⟨b, rest, rfl⟩ : ∃ b rest, run = b :: rest := by
    cases run with
    | nil => exact absurd rfl hne
    | cons b rest => exact ⟨b, rest, rfl⟩
  have hfields : a = OutBar.mk (rest.getLastD b).ts b.op
      ((rest.map Bar.high).foldl max b.high)
      ((rest.map Bar.low).foldl min b.low)
      (rest.getLastD b).close
      (b.volume + (rest.map Bar.volume).sum)
      (rest.length + 1) := by
    have := hagg
    simp only [aggregate_chunk, Option.some_inj] at this
    exact this.symm
  refine ⟨b :: rest, hne, hinf, hagg, ?_, ?_, ?_, ?_, ?_, ?_, ?_, ?_, ?_⟩
  · simp [hfields]
  · intro x hx
    rw [hfields]
    rcases List.mem_cons.mp hx with rfl | hx
    · exact le_foldl_max (rest.map Bar.high) x.high
    · exact mem_le_foldl_max (rest.map Bar.high) b.high x.high
        (List.mem_map_of_mem Bar.high hx)
  · rw [hfields]
    rcases foldl_max_eq_or_mem (rest.map Bar.high) b.high with h | h
    · rw [h]; simp
    · simp only [List.map_cons, List.mem_cons]
      exact Or.inr h
  · intro x hx
    rw [hfields]
    rcases List.mem_cons.mp hx with rfl | hx
    · exact foldl_min_le (rest.map Bar.low) x.low
    · exact foldl_min_le_mem (rest.map Bar.low) b.low x.low
        (List.mem_map_of_mem Bar.low hx)
  · rw [hfields]
    rcases foldl_min_eq_or_mem (rest.map Bar.low) b.low with h | h
    · rw [h]; simp
    · simp only [List.map_cons, List.mem_cons]
      exact Or.inr h
  · rw [hfields, getLast?_map_cons]
  · rw [hfields]
    simp
  · rw [hfields]
    simp
  · rw [hfields, getLast?_map_cons]

/-- Concrete instance of `C3_chunk_aggregation`: the first output bar of the
ten-bar volume-bar example aggregates a run with the stated fields. -/
theorem C3_chunk_aggregation_witness :
    ∃ run : List Bar, run ≠ [] ∧ (∃ pre suf, tenBars = pre ++ run ++ suf) ∧
      aggregate_chunk run = some (OutBar.mk 2 1 1 1 1 150 3) ∧
      (run.map Bar.op).head? = some (OutBar.mk 2 1 1 1 1 150 3).op ∧
      (∀ b ∈ run, b.high ≤ (OutBar.mk 2 1 1 1 1 150 3).high) ∧
      (OutBar.mk 2 1 1 1 1 150 3).high ∈ run.map Bar.high ∧
      (∀ b ∈ run, (OutBar.mk 2 1 1 1 1 150 3).low ≤ b.low) ∧
      (OutBar.mk 2 1 1 1 1 150 3).low ∈ run.map Bar.low ∧
      (run.map Bar.close).getLast? = some (OutBar.mk 2 1 1 1 1 150 3).close ∧
      (OutBar.mk 2 1 1 1 1 150 3).volume = (run.map Bar.volume).sum ∧
      (OutBar.mk 2 1 1 1 1 150 3).n_src_bars = run.length ∧
      (run.map Bar.ts).getLast? = some (OutBar.mk 2 1 1 1 1 150 3).ts :=
  C3_chunk_aggregation tenBars 120 PriceBasis.close true (OutBar.mk 2 1 1 1 1 150 3)
    (Or.inl (by norm_num [time_to_volume_bars, tenBars, exBar, chunksAux,
      aggregate_chunk, List.filterMap]))

/-- A head start in the accumulator (and a possibly non-empty open chunk)
changes the number of chunks the loop closes by at most one in each
direction. -/
lemma chunksAux_length_sandwich (w : Bar → ℚ) (th : ℚ) (keep : Bool) :
    ∀ (bars : List Bar), (∀ b ∈ bars, 0 ≤ w b) →
    ∀ (curS curB : List Bar) (cumS cumB : ℚ), 0 ≤ cumS → cumS ≤ cumB →
      (curS ≠ [] → curB ≠ []) →
      (chunksAux w th keep bars curS cumS).length ≤
        (chunksAux w th keep bars curB cumB).length ∧
      (chunksAux w th keep bars curB cumB).length ≤
        1 + (chunksAux w th keep bars curS cumS).length := by
  intro bars
  induction bars with
  | nil =>
    intro _ curS curB cumS cumB h0 hle hne
    simp only [chunksAux]
    constructor
    · split_ifs with hS hB
      · simp
      · exact absurd ⟨hS.1, hne hS.2⟩ hB
      · simp
      · simp
    · split_ifs <;> simp
  | cons b rest ih =>
    intro hw curS curB cumS cumB h0 hle hne
    have hwb : 0 ≤ w b := hw b (List.mem_cons_self b rest)
    have hwr : ∀ x ∈ rest, 0 ≤ w x := fun x hx => hw x (List.mem_cons_of_mem b hx)
    by_cases hB : th ≤ cumB + w b
    · by_cases hS : th ≤ cumS + w b
      · have ihr := ih hwr [] [] 0 0 le_rfl le_rfl (fun h => h)
        simp only [chunksAux, if_pos hB, if_pos hS, List.length_cons]
        omega
      · have ih1 := ih hwr [] (b :: curS) 0 (cumS + w b) le_rfl (by linarith)
          (fun h => absurd rfl h)
        simp only [chunksAux, if_pos hB, if_neg hS, List.length_cons]
        omega
    · have hS : ¬ th ≤ cumS + w b := fun h => hB (le_trans h (by linarith))
      have ihr := ih hwr (b :: curS) (b :: curB) (cumS + w b) (cumB + w b)
        (by linarith) (by linarith) (fun _ => by simp)
      simp only [chunksAux, if_neg hB, if_neg hS]
      exact ihr

/-- Raising the threshold (equivalently, lowering the accumulator head start)
never increases the number of chunks the loop closes. -/
lemma chunksAux_length_anti (w : Bar → ℚ) (keep : Bool) (th th' : ℚ)
    (hth : th ≤ th') :
    ∀ (bars : List Bar), (∀ b ∈ bars, 0 ≤ w b) →
    ∀ (curS curB : List Bar) (cumS cumB : ℚ), 0 ≤ cumS → cumS ≤ cumB →
      (curS ≠ [] → curB ≠ []) →
      (chunksAux w th' keep bars curS cumS).length ≤
        (chunksAux w th keep bars curB cumB).length := by
  intro bars
  induction bars with
  | nil =>
    intro _ curS curB cumS cumB h0 hle hne
    simp only [chunksAux]
    split_ifs with hS hB
    · simp
    · exact absurd ⟨hS.1, hne hS.2⟩ hB
    · simp
    · simp
  | cons b rest ih =>
    intro hw curS curB cumS cumB h0 hle hne
    have hwb : 0 ≤ w b := hw b (List.mem_cons_self b rest)
    have hwr : ∀ x ∈ rest, 0 ≤ w x := fun x hx => hw x (List.mem_cons_of_mem b hx)
    by_cases hB : th ≤ cumB + w b
    · by_cases hS : th' ≤ cumS + w b
      · have ihr := ih hwr [] [] 0 0 le_rfl le_rfl (fun h => h)
        simp only [chunksAux, if_pos hB, if_pos hS, List.length_cons]
        omega
      · have hsand := (chunksAux_length_sandwich w th' keep rest hwr [] (b :: curS)
          0 (cumS + w b) le_rfl (by linarith) (fun h => absurd rfl h)).2
        have ihr := ih hwr [] [] 0 0 le_rfl le_rfl (fun h => h)
        simp only [chunksAux, if_pos hB, if_neg hS, List.length_cons]
        omega
    · have hS : ¬ th' ≤ cumS + w b := by
        intro h
        exact hB (le_trans hth (le_trans h (by linarith)))
      have ihr := ih hwr (b :: curS) (b :: curB) (cumS + w b) (cumB + w b)
        (by linarith) (by linarith) (fun _ => by simp)
      simp only [chunksAux, if_neg hB, if_neg hS]
      exact ihr

lemma length_filterMap_aggregate (cs : List (List Bar))
    (h : ∀ c ∈ cs, c ≠ []) :
    (cs.filterMap aggregate_chunk).length = cs.length := by
  induction cs with
  | nil => rfl
  | cons c cs ih =>
    obtain ⟨b, rest, rfl⟩ : ∃ b rest, c = b :: rest := by
      cases c with
      | nil => exact absurd rfl (h [] (List.mem_cons_self _ _))
      | cons b rest => exact ⟨b, rest, rfl⟩
    simp only [List.filterMap_cons, aggregate_chunk, List.length_cons]
    rw [ih (fun c hc => h c (List.mem_cons_of_mem _ hc))]

/-- C9: for a fixed input series (with the data model's nonnegative volumes)
and fixed tail policy, raising the volume threshold never increases the
number of output bars of `time_to_volume_bars`. -/
theorem C9_threshold_monotonicity (bars : List Bar) (t1 t2 : ℚ) (kt : Bool)
    (hv : ∀ b ∈ bars, 0 ≤ b.volume) (ht1 : 0 < t1) (h12 : t1 ≤ t2) :
    (time_to_volume_bars bars t2 kt).length ≤
      (time_to_volume_bars bars t1 kt).length := by
  unfold time_to_volume_bars
  rw [length_filterMap_aggregate _ (chunksAux_ne_nil Bar.volume t2 kt bars [] 0),
    length_filterMap_aggregate _ (chunksAux_ne_nil Bar.volume t1 kt bars [] 0)]
  exact chunksAux_length_anti Bar.volume kt t1 t2 h12 bars hv [] [] 0 0
    le_rfl le_rfl (fun h => h)

/-- Concrete instance of `C9_threshold_monotonicity`: on the ten-bar example,
threshold `200` produces no more bars than threshold `120`. -/
theorem C9_threshold_monotonicity_witness :
    (time_to_volume_bars tenBars 200 true).length ≤
      (time_to_volume_bars tenBars 120 true).length :=
  C9_threshold_monotonicity tenBars 120 200 true
    (by intro b hb; fin_cases hb <;> norm_num [exBar]) (by norm_num) (by norm_num)

/-- A single source bar whose volume `1` stays below the threshold `5` used in
the `C10` counterexample. -/
def oneLowBar : Bar :=
  { ts := 0, op := 1, high := 1, low := 1, close := 1, volume := 1,
    trades := 1, vwap := 1 }

/-- C10 counterexample: with tail policy `drop` (`keep_tail=False`), the
non-empty input `[oneLowBar]` and the strictly positive threshold `5` produce
an *empty* output series, refuting "empty iff input empty" for every tail
policy. -/
theorem C10_empty_iff_counterexample :
    time_to_volume_bars [oneLowBar] 5 false = [] ∧ ([oneLowBar] : List Bar) ≠ [] := by
  constructor
  · norm_num [time_to_volume_bars, oneLowBar, chunksAux]
  · simp

/-- C10 (amended): with tail policy `keep` the output of `time_to_volume_bars`
is empty iff the input is empty (for every threshold); with tail policy `drop`
an empty input still yields an empty output, but a non-empty under-threshold
input may also yield an empty output (see the counterexample). -/
theorem C10_empty_iff_amended (bars : List Bar) (th : ℚ) :
    (time_to_volume_bars bars th true = [] ↔ bars = []) ∧
    time_to_volume_bars ([] : List Bar) th false = [] := by
  refine ⟨⟨?_, ?_⟩, ?_⟩
  · intro h
    have hlen := length_filterMap_aggregate (chunksAux Bar.volume th true bars [] 0)
      (chunksAux_ne_nil Bar.volume th true bars [] 0)
    unfold time_to_volume_bars at h
    rw [h] at hlen
    have hcs : chunksAux Bar.volume th true bars [] 0 = [] :=
      List.length_eq_zero.mp hlen.symm
    have hflat := chunksAux_join_keep Bar.volume th bars [] 0
    rw [hcs] at hflat
    simpa using hflat.symm
  · intro h
    subst h
    rfl
  · rfl

/-- Two source bars of volume `1` for the `C7` counterexample. -/
def twoUnitBars : List Bar :=
  [oneLowBar, Bar.mk 1 1 1 1 1 1 1 1]

/-- C7 counterexample: the builders perform no threshold validation; at the
non-strictly-positive threshold `0`, `time_to_volume_bars` returns an ordinary
two-bar series (one output bar per source bar) instead of failing. -/
theorem C7_invalid_threshold_counterexample :
    time_to_volume_bars twoUnitBars 0 true =
      [OutBar.mk 0 1 1 1 1 1 1, OutBar.mk 1 1 1 1 1 1 1] := by
  norm_num [time_to_volume_bars, twoUnitBars, oneLowBar, chunksAux,
    aggregate_chunk, List.filterMap]

lemma chunksAux_nonpos (w : Bar → ℚ) (th : ℚ) (kt : Bool) (hth : th ≤ 0) :
    ∀ (bars : List Bar), (∀ b ∈ bars, 0 ≤ w b) →
      chunksAux w th kt bars [] 0 = bars.map (fun b => [b]) := by
  intro bars
  induction bars with
  | nil => simp [chunksAux]
  | cons b rest ih =>
    intro hw
    have hwb : 0 ≤ w b := hw b (List.mem_cons_self b rest)
    have hcross : th ≤ 0 + w b := by linarith
    simp only [chunksAux, if_pos hcross, List.map_cons]
    rw [ih (fun x hx => hw x (List.mem_cons_of_mem b hx))]
    simp

/-- C7 (amended): none of the three builders validates its threshold; for a
threshold `≤ 0` (and the data model's nonnegative accumulation weights) each
builder returns one output bar per source bar rather than failing. -/
theorem C7_invalid_threshold_amended (bars : List Bar) (th : ℚ) (kt : Bool)
    (basis : PriceBasis) (hth : th ≤ 0)
    (hv : ∀ b ∈ bars, 0 ≤ b.volume)
    (hd : ∀ b ∈ bars, 0 ≤ typical_price basis b * b.volume)
    (htr : ∀ b ∈ bars, 0 ≤ b.trades) :
    (time_to_volume_bars bars th kt).length = bars.length ∧
    (time_to_dollar_bars bars th basis kt).length = bars.length ∧
    (time_to_tick_bars bars th kt).length = bars.length := by
  refine ⟨?_, ?_, ?_⟩
  · unfold time_to_volume_bars
    rw [chunksAux_nonpos Bar.volume th kt hth bars hv]
    rw [length_filterMap_aggregate _ (by intro c hc; simp at hc; obtain ⟨b, _, rfl⟩ := hc; simp)]
    simp
  · unfold time_to_dollar_bars
    rw [chunksAux_nonpos (fun b => typical_price basis b * b.volume) th kt hth bars hd]
    rw [length_filterMap_aggregate _ (by intro c hc; simp at hc; obtain ⟨b, _, rfl⟩ := hc; simp)]
    simp
  · unfold time_to_tick_bars
    rw [chunksAux_nonpos Bar.trades th kt hth bars htr]
    rw [length_filterMap_aggregate _ (by intro c hc; simp at hc; obtain ⟨b, _, rfl⟩ := hc; simp)]
    simp

/-- Concrete instance of `C7_invalid_threshold_amended` at threshold `0` on
the two-bar input. -/
theorem C7_invalid_threshold_amended_witness :
    (time_to_volume_bars twoUnitBars 0 true).length = twoUnitBars.length ∧
    (time_to_dollar_bars twoUnitBars 0 PriceBasis.close true).length = twoUnitBars.length ∧
    (time_to_tick_bars twoUnitBars 0 true).length = twoUnitBars.length :=
  C7_invalid_threshold_amended twoUnitBars 0 true PriceBasis.close (by norm_num)
    (by intro b hb; fin_cases hb <;> norm_num [twoUnitBars, oneLowBar])
    (by intro b hb; fin_cases hb <;> norm_num [twoUnitBars, oneLowBar, typical_price])
    (by intro b hb; fin_cases hb <;> norm_num [twoUnitBars, oneLowBar])

/-! ## sma_cross strategy (strategies/sma_cross.py) -/

/-- `price.rolling(w).mean()` at row `i` with pandas' default
`min_periods = w`: defined (`some`) only once `i + 1 ≥ w`, as the mean of the
`w` observations ending at row `i`; `none` models the `NaN` cells of the
warm-up region. -/
def rollingMean (w : ℕ) (xs : List ℚ) (i : ℕ) : Option ℚ :=
  if w ≠ 0 ∧ w ≤ i + 1 then
    some ((((xs.take (i + 1)).drop (i + 1 - w)).sum) / (w : ℚ))
  else none

/-- The trend mask `(ma_fast > ma_slow).astype(float)` (sma_cross.py
lines 8–10): a comparison against a `NaN` warm-up cell is `False`, so the
resulting float column is `NaN`-free, holding only `0.0`/`1.0`. -/
def trend_mask (fast slow : ℕ) (price : List ℚ) : List ℚ :=
  (List.range price.length).map fun i =>
    match rollingMean fast price i, rollingMean slow price i with
    | some a, some b => if b < a then (1 : ℚ) else 0
    | _, _ => 0

/-- The edge mask `(forecast > price).astype(float)` (sma_cross.py line 11):
likewise a `NaN`-free `0.0`/`1.0` float column on the price index. -/
def edge_mask (price forecast : List ℚ) : List ℚ :=
  (List.range price.length).map fun i =>
    match forecast[i]?, price[i]? with
    | some f, some p => if p < f then (1 : ℚ) else 0
    | _, _ => 0

/-- `Strategy.generate_positions` (sma_cross.py lines 6–12).  The final
expression `(trend & edge).astype(float)` applies pandas `&` to two *float64*
Series: pandas' `logical_op` does not coerce a non-bool operand when the left
operand is non-bool, `np.bitwise_and` rejects float64, and the object-array
fallback re-raises `TypeError` for any row holding two non-`NaN` floats.
Since both masks are `NaN`-free, the call raises on every non-empty input —
modelled as `none`; only an empty input survives the (element-free) fallback
and yields an empty series. -/
def generate_positions (fast slow : ℕ) (price forecast : List ℚ) :
    Option (List ℚ) :=
  match trend_mask fast slow price, edge_mask price forecast with
  | [], [] => some []
  | _, _ => none

/-- C4: the behaviour the claim describes does not exist in the code:
`generate_positions` raises `TypeError` (modelled as `none`) on every
non-empty input, because sma_cross.py casts both masks with `.astype(float)`
before the `&` — a dtype slip (app.py's near-duplicate uses `.astype(int)`).
It therefore never returns a position series at all, shifted or otherwise; in
particular the concrete request with `fast=1, slow=2`, prices `[1, 2]` and
forecast `[3, 3]` raises.  (The one-bar shift the claim attributes to the
PositionModel is applied by `run_backtest`, `pos.shift(1)`, engine.py
line 33.) -/
theorem C4_generate_positions_raises (fast slow : ℕ) (price forecast : List ℚ)
    (hne : price ≠ []) :
    generate_positions fast slow price forecast = none ∧
    generate_positions 1 2 [1, 2] [3, 3] = none := by
  constructor
  · obtain ⟨p, ps, rfl⟩ : ∃ p ps, price = p :: ps := by
      cases price with
      | nil => exact absurd rfl hne
      | cons p ps => exact ⟨p, ps, rfl⟩
    unfold generate_positions
    rcases htm : trend_mask fast slow (p :: ps) with _ | ⟨t, ts⟩
    · have : (trend_mask fast slow (p :: ps)).length = ps.length + 1 := by
        simp [trend_mask]
      rw [htm] at this
      simp at this
    · rfl
  · rfl

/-- Concrete instance of `C4_generate_positions_raises`: the `[1, 2]` /
`[3, 3]` request raises instead of returning positions. -/
theorem C4_generate_positions_raises_witness :
    generate_positions 1 2 [1, 2] [3, 3] = none :=
  (C4_generate_positions_raises 1 2 [1, 2] [3, 3] (by simp)).1

/-! ## Metrics (engine.py `_perf_metrics` and app.py `periods_per_year`,
`metrics_from_equity`)

All list statistics are exact over `ℚ`; only the square roots
(`Series.std()`, `np.sqrt`) live in `ℝ`. -/

/-- `series.pct_change().dropna()`: the consecutive-pair returns with the
first (undefined) point dropped. -/
def pct_change_drop (xs : List ℚ) : List ℚ :=
  List.zipWith (fun prev cur => cur / prev - 1) xs xs.tail

/-- `series.mean()`. -/
def listMean (xs : List ℚ) : ℚ := xs.sum / (xs.length : ℚ)

/-- The square of `series.std()` (pandas default `ddof=1`): sample variance.
(For a single observation pandas yields `NaN`; every claim below evaluates it
on at least two observations.) -/
def sampleVar (xs : List ℚ) : ℚ :=
  ((xs.map (fun x => (x - listMean xs) ^ 2)).sum) / ((xs.length : ℚ) - 1)

/-- `series.std()` (ddof=1). -/
noncomputable def sampleStd (xs : List ℚ) : ℝ :=
  Real.sqrt ((sampleVar xs : ℚ) : ℝ)

/-- The Sharpe ratio of `_perf_metrics` (engine.py line 48), `rf = 0`:
`(returns.mean() - rf) / (returns.std() + 1e-9) * np.sqrt(365*24)` — the
annualization factor `sqrt(365*24)` is hard-coded, whatever the request's
timeframe. -/
noncomputable def perf_sharpe (returns : List ℚ) : ℝ :=
  ((listMean returns : ℚ) : ℝ) / (sampleStd returns + 1e-9) * Real.sqrt (365 * 24)

/-- The win rate of `_perf_metrics` (engine.py lines 53 and 59):
`wins / max(trades, 1)` with `wins = (returns > 0).sum()` and
`trades = (returns != 0).sum()`. -/
def perf_win_rate (returns : List ℚ) : ℚ :=
  ((returns.countP (fun x => decide (0 < x)) : ℕ) : ℚ) /
    ((max (returns.countP (fun x => decide (x ≠ 0))) 1 : ℕ) : ℚ)

/-- `int(tf[:-1])` on an all-digit string. -/
def digitsToNat (s : List Char) : ℕ :=
  s.foldl (fun n c => n * 10 + (c.toNat - '0'.toNat)) 0

/-- `periods_per_year(tf)` (app.py lines 56–64), operating on the string's
character list: `mult = int(tf[:-1]) if tf[:-1].isdigit() else 1`,
dispatch on the final unit character, integer division (floor, as `int()` of
a positive float quotient).  Python raises on an empty `tf`; the `none`
branch is unreachable for the claims' timeframes. -/
def periods_per_year (tf : String) : ℕ :=
  let s : List Char := tf.data.dropLast
  let mult : ℕ := if s ≠ [] ∧ s.all Char.isDigit then digitsToNat s else 1
  match tf.data.getLast? with
  | some c =>
    if c = 'm' then 365 * 24 * 60 / mult
    else if c = 'h' then 365 * 24 / mult
    else if c = 'd' then 365 / mult
    else if c = 'w' then 52 / mult
    else 365
  | none => 365

/-- The Sharpe ratio of `metrics_from_equity` (app.py lines 136–139):
returns are `eq.pct_change().dropna()`; a degenerate equity series (no
returns) reports `0.0`; otherwise
`np.sqrt(ppyr) * (rets.mean() / (rets.std() + 1e-9))`. -/
noncomputable def metrics_sharpe (eq : List ℚ) (ppyr : ℕ) : ℝ :=
  if pct_change_drop eq = [] then 0
  else Real.sqrt (ppyr : ℝ) *
    (((listMean (pct_change_drop eq) : ℚ) : ℝ) /
      (sampleStd (pct_change_drop eq) + 1e-9))

/-- The win rate of `metrics_from_equity` (app.py line 140):
`(rets > 0).mean()`, i.e. the fraction of *all* periods with return `> 0`
(`0.0` for a degenerate series). -/
def metrics_win_rate (eq : List ℚ) : ℚ :=
  if pct_change_drop eq = [] then 0
  else (((pct_change_drop eq).countP (fun x => decide (0 < x)) : ℕ) : ℚ) /
    (((pct_change_drop eq).length : ℕ) : ℚ)

/-- C6 counterexample: running the engine on prices `[1, 1, 2]` with constant
position `1` gives strategy returns `[0, 0, 1]` and equity `[c, c, 2c]`.  The
per-period equity returns (first point dropped) are `[0, 1]`, so the claimed
win rate is `1/2`; but `_perf_metrics` reports `wins / max(trades, 1) = 1/1
= 1`, because the zero-return period is excluded from its denominator. -/
theorem C6_win_rate_counterexample :
    strat_ret [1, 1, 2] [1, 1, 1] = [0, 0, 1] ∧
    pct_change_drop (run_equity [1, 1, 2] [1, 1, 1] 1000) = [0, 1] ∧
    perf_win_rate [0, 0, 1] = 1 ∧
    ((([0, 1] : List ℚ).countP (fun x => decide (0 < x)) : ℕ) : ℚ) /
      ((([0, 1] : List ℚ).length : ℕ) : ℚ) = 1 / 2 ∧
    (1 : ℚ) ≠ 1 / 2 := by
  refine ⟨?_, ?_, ?_, ?_, by norm_num⟩
  · norm_num [strat_ret, shift1, pct_change_fill0]
  · norm_num [pct_change_drop, run_equity, strat_ret, shift1, pct_change_fill0,
      cumprod]
  · norm_num [perf_win_rate, List.countP, List.countP.go]
  · norm_num [List.countP, List.countP.go]

/-- C6 (amended): `metrics_from_equity` (app.py) reports the win rate as the
fraction of *all* per-period returns that are `> 0` — on that path the claim
holds; `_perf_metrics` (engine.py) instead divides by
`max(#nonzero-return periods, 1)`, so the two agree exactly when no period
has a zero return. -/
theorem C6_win_rate_amended :
    (∀ eq : List ℚ, pct_change_drop eq ≠ [] →
      metrics_win_rate eq =
        (((pct_change_drop eq).countP (fun x => decide (0 < x)) : ℕ) : ℚ) /
          (((pct_change_drop eq).length : ℕ) : ℚ)) ∧
    (∀ rs : List ℚ, perf_win_rate rs =
      ((rs.countP (fun x => decide (0 < x)) : ℕ) : ℚ) /
        ((max (rs.countP (fun x => decide (x ≠ 0))) 1 : ℕ) : ℚ)) ∧
    (∀ rs : List ℚ, rs ≠ [] → (∀ x ∈ rs, x ≠ 0) →
      perf_win_rate rs =
        ((rs.countP (fun x => decide (0 < x)) : ℕ) : ℚ) / ((rs.length : ℕ) : ℚ)) := by
  refine ⟨?_, ?_, ?_⟩
  · intro eq h
    rw [metrics_win_rate, if_neg h]
  · intro rs
    rfl
  · intro rs hne hz
    have hcount : rs.countP (fun x => decide (x ≠ 0)) = rs.length :=
      List.countP_eq_length.mpr (fun x hx => by simpa using hz x hx)
    have hlen : 1 ≤ rs.length := by
      cases rs with
      | nil => exact absurd rfl hne
      | cons a l => simp
    rw [perf_win_rate, hcount, Nat.max_eq_left hlen]

/-- Concrete instance of `C6_win_rate_amended`: on the all-nonzero returns
`[1, -1]` the engine win rate coincides with the all-periods fraction. -/
theorem C6_win_rate_amended_witness :
    ([1, -1] : List ℚ) ≠ [] ∧
    perf_win_rate [1, -1] =
      ((([1, -1] : List ℚ).countP (fun x => decide (0 < x)) : ℕ) : ℚ) /
        ((([1, -1] : List ℚ).length : ℕ) : ℚ) :=
  ⟨by simp, C6_win_rate_amended.2.2 [1, -1] (by simp) (by norm_num)⟩

lemma sqrt_le_of_sq (x y : ℝ) (hy : 0 ≤ y) (h : x ≤ y ^ 2) :
    Real.sqrt x ≤ y := by
  calc Real.sqrt x ≤ Real.sqrt (y ^ 2) := Real.sqrt_le_sqrt h
    _ = y := Real.sqrt_sq hy

lemma le_sqrt_of_sq (x y : ℝ) (hx : 0 ≤ x) (h : x ^ 2 ≤ y) :
    x ≤ Real.sqrt y := by
  calc x = Real.sqrt (x ^ 2) := (Real.sqrt_sq hx).symm
    _ ≤ Real.sqrt y := Real.sqrt_le_sqrt h

/-- C5 counterexample: run the engine on prices `[1, 2, 4]` with constant
position `1` under a `"1d"` timeframe request.  The strategy returns are
`[0, 1, 1]` and the equity path is `[1000, 2000, 4000]`, whose per-period
returns (first point dropped) are `[1, 1]` with standard deviation `0`.  The
claim's formula with the timeframe-derived `periods_per_year("1d") = 365`
gives `10^9 * sqrt 365`, but `_perf_metrics` reports
`mean([0,1,1]) / (std([0,1,1]) + 1e-9) * sqrt(365*24)` — a fixed hourly
annualization (and the un-dropped leading return): the two differ. -/
theorem C5_sharpe_annualization_counterexample :
    strat_ret [1, 2, 4] [1, 1, 1] = [0, 1, 1] ∧
    pct_change_drop (run_equity [1, 2, 4] [1, 1, 1] 1000) = [1, 1] ∧
    periods_per_year ("1d") = 365 ∧
    perf_sharpe [0, 1, 1] ≠
      ((listMean [1, 1] : ℚ) : ℝ) / (sampleStd [1, 1] + 1e-9) *
        Real.sqrt ((periods_per_year ("1d") : ℕ) : ℝ) := by
  have hppy : periods_per_year ("1d") = 365 := by decide
  refine ⟨?_, ?_, hppy, ?_⟩
  · norm_num [strat_ret, shift1, pct_change_fill0]
  · norm_num [pct_change_drop, run_equity, strat_ret, shift1, pct_change_fill0,
      cumprod]
  · -- the engine value is below 126, the claimed value above 10^10
    have hmean1 : listMean [0, 1, 1] = 2 / 3 := by norm_num [listMean]
    have hvar1 : sampleVar [0, 1, 1] = 1 / 3 := by
      norm_num [sampleVar, listMean]
    have hstd1 : sampleStd [0, 1, 1] = Real.sqrt (1 / 3 : ℝ) := by
      rw [sampleStd, hvar1]
      norm_num
    have hmean2 : listMean [1, 1] = 1 := by norm_num [listMean]
    have hvar2 : sampleVar [1, 1] = 0 := by norm_num [sampleVar, listMean]
    have hstd2 : sampleStd [1, 1] = 0 := by
      rw [sampleStd, hvar2]
      norm_num
    have hs3 : Real.sqrt 3 ≤ 2 := sqrt_le_of_sq 3 2 (by norm_num) (by norm_num)
    have hs3pos : (0 : ℝ) < Real.sqrt 3 := Real.sqrt_pos.mpr (by norm_num)
    have hinv : Real.sqrt (1 / 3 : ℝ) = (Real.sqrt 3)⁻¹ := by
      rw [show (1 / 3 : ℝ) = 3⁻¹ by norm_num, Real.sqrt_inv]
    have hge : (1 / 2 : ℝ) ≤ Real.sqrt (1 / 3 : ℝ) := by
      rw [hinv, show (1 / 2 : ℝ) = 2⁻¹ by norm_num]
      exact inv_anti₀ hs3pos hs3
    have h8760 : Real.sqrt (365 * 24 : ℝ) ≤ 94 :=
      sqrt_le_of_sq (365 * 24) 94 (by norm_num) (by norm_num)
    have h365 : (19 : ℝ) ≤ Real.sqrt ((365 : ℕ) : ℝ) :=
      le_sqrt_of_sq 19 ((365 : ℕ) : ℝ) (by norm_num) (by norm_num)
    have hA : perf_sharpe [0, 1, 1] ≤ 126 := by
      rw [perf_sharpe, hstd1, hmean1]
      have hq : ((2 / 3 : ℚ) : ℝ) / (Real.sqrt (1 / 3 : ℝ) + 1e-9) ≤ 4 / 3 := by
        have hpos : (0 : ℝ) < 1 / 2 := by norm_num
        have hle : (1 / 2 : ℝ) ≤ Real.sqrt (1 / 3 : ℝ) + 1e-9 := by
          have := Real.sqrt_nonneg (1 / 3 : ℝ)
          linarith
        calc ((2 / 3 : ℚ) : ℝ) / (Real.sqrt (1 / 3 : ℝ) + 1e-9)
            ≤ ((2 / 3 : ℚ) : ℝ) / (1 / 2) := by
              apply div_le_div_of_nonneg_left (by norm_num) hpos hle
          _ ≤ 4 / 3 := by norm_num
      calc ((2 / 3 : ℚ) : ℝ) / (Real.sqrt (1 / 3 : ℝ) + 1e-9) * Real.sqrt (365 * 24)
          ≤ (4 / 3) * 94 := by
            apply mul_le_mul hq h8760 (Real.sqrt_nonneg _) (by norm_num)
        _ ≤ 126 := by norm_num
    have hB : (19 * 10 ^ 9 : ℝ) ≤
        ((listMean [1, 1] : ℚ) : ℝ) / (sampleStd [1, 1] + 1e-9) *
          Real.sqrt ((periods_per_year ("1d") : ℕ) : ℝ) := by
      rw [hmean2, hstd2, hppy]
      have hquot : ((1 : ℚ) : ℝ) / ((0 : ℝ) + 1e-9) = 10 ^ 9 := by norm_num
      rw [hquot]
      calc (19 * 10 ^ 9 : ℝ) = 10 ^ 9 * 19 := by ring
        _ ≤ 10 ^ 9 * Real.sqrt ((365 : ℕ) : ℝ) := by
            apply mul_le_mul_of_nonneg_left h365 (by norm_num)
    intro hcontra
    rw [hcontra] at hA
    linarith

/-- C5 (amended): `metrics_from_equity` (app.py) annualizes its Sharpe ratio
with `sqrt(periods_per_year(tf))`, and `periods_per_year` derives the factor
from the requested timeframe (`"1h"` gives `365*24`, `"1d"` gives `365`); but
`_perf_metrics` (engine.py, the `/backtest/run` path) multiplies by the fixed
factor `sqrt(365*24)` for every timeframe, and its returns keep the
filled-in leading `0`. -/
theorem C5_sharpe_annualization_amended :
    (∀ returns : List ℚ, perf_sharpe returns =
      ((listMean returns : ℚ) : ℝ) / (sampleStd returns + 1e-9) *
        Real.sqrt (365 * 24)) ∧
    periods_per_year ("1h") = 365 * 24 ∧
    periods_per_year ("1d") = 365 ∧
    periods_per_year ("5m") = 365 * 24 * 12 ∧
    (∀ (eq : List ℚ) (ppyr : ℕ), pct_change_drop eq ≠ [] →
      metrics_sharpe eq ppyr =
        Real.sqrt (ppyr : ℝ) *
          (((listMean (pct_change_drop eq) : ℚ) : ℝ) /
            (sampleStd (pct_change_drop eq) + 1e-9))) := by
  refine ⟨fun returns => rfl, by decide, by decide, by decide, ?_⟩
  intro eq ppyr h
  rw [metrics_sharpe, if_neg h]

/-- Concrete instance of `C5_sharpe_annualization_amended`: the app-path
Sharpe on equity `[1, 2, 4]` with the `"1d"` factor. -/
theorem C5_sharpe_annualization_amended_witness :
    pct_change_drop [1, 2, 4] ≠ [] ∧
    metrics_sharpe [1, 2, 4] 365 =
      Real.sqrt ((365 : ℕ) : ℝ) *
        (((listMean (pct_change_drop [1, 2, 4]) : ℚ) : ℝ) /
          (sampleStd (pct_change_drop [1, 2, 4]) + 1e-9)) :=
  ⟨by simp [pct_change_drop], C5_sharpe_annualization_amended.2.2.2.2 [1, 2, 4] 365
    (by simp [pct_change_drop])⟩

/-! ## Unit/cash bookkeeping simulator (app.py `equity_sma_cross`,
lines 108–132) -/

/-- The bookkeeping loop of `equity_sma_cross` (app.py lines 116–129), with
the lagged position series abstracted as the second component of each pair
(`equity_sma_cross` instantiates it with its shifted SMA-cross signal; the
claim quantifies over arbitrary binary position series).  For each bar after
the first: if the lagged position is truthy and we hold no units, enter long
(`units = cash/p; cash = 0`); else if it is falsy and `units > 0`, exit
(`cash = units*p; units = 0`); then append `cash + units * p`. -/
def bkLoop : List (ℚ × ℚ) → ℚ → ℚ → List ℚ
  | [], _, _ => []
  | (p, pos) :: rest, units, cash =>
    if pos ≠ 0 ∧ units = 0 then
      (0 + cash / p * p) :: bkLoop rest (cash / p) 0
    else if pos = 0 ∧ 0 < units then
      (units * p + 0 * p) :: bkLoop rest 0 (units * p)
    else
      (cash + units * p) :: bkLoop rest units cash

/-- `equity_sma_cross`' equity series: `equity = [cash_start]` followed by the
loop over `zip(price.iloc[1:], long.iloc[1:])`. -/
def equity_sma_cross_loop (price long : List ℚ) (cash_start : ℚ) : List ℚ :=
  cash_start :: bkLoop (price.tail.zip long.tail) 0 cash_start

/-- The claim's bookkeeping simulator on a raw position series: the one-bar
lag (`long = long.shift(1).fillna(0)`, app.py line 114) applied to `pos`,
then the bookkeeping loop. -/
def bookkeep_equity (price pos : List ℚ) (cash : ℚ) : List ℚ :=
  equity_sma_cross_loop price (shift1 pos) cash

/-- Compounding from reference price `q` and equity `E`: each pair carries
(bar price, exposure applied over the step into that bar). -/
def compoundList (q E : ℚ) : List (ℚ × ℚ) → List ℚ
  | [] => []
  | (p, e) :: rest =>
    E * (1 + e * (p / q - 1)) :: compoundList p (E * (1 + e * (p / q - 1))) rest

lemma map_mul_mul (E y : ℚ) (l : List ℚ) :
    (l.map (fun z => y * z)).map (fun z => E * z) =
      l.map (fun z => (E * y) * z) := by
  rw [List.map_map]
  apply List.map_congr_left
  intro z _
  simp [Function.comp, mul_assoc]

lemma cumprod_zip_eq_compoundList :
    ∀ (tl es : List ℚ) (q E : ℚ),
      (cumprod ((List.zipWith (fun a b => a * b) es
        (List.zipWith (fun prev cur => cur / prev - 1) (q :: tl) tl)).map
          (fun r => 1 + r))).map (fun y => E * y) =
      compoundList q E (tl.zip es) := by
  intro tl
  induction tl with
  | nil =>
    intro es q E
    simp [cumprod, compoundList]
  | cons p tl' ih =>
    intro es q E
    cases es with
    | nil => simp [cumprod, compoundList]
    | cons e es' =>
      simp only [List.zipWith_cons_cons, List.map_cons, cumprod, List.zip_cons_cons,
        compoundList]
      rw [map_mul_mul]
      rw [ih es' p (E * (1 + e * (p / q - 1)))]
      rfl

lemma run_equity_eq_compoundList (q : ℚ) (tl pos : List ℚ) (cash : ℚ)
    (hpos : pos ≠ []) :
    run_equity (q :: tl) pos cash =
      cash :: compoundList q cash (tl.zip pos.dropLast) := by
  obtain ⟨x, xs, rfl⟩ : ∃ x xs, pos = x :: xs := by
    cases pos with
    | nil => exact absurd rfl hpos
    | cons x xs => exact ⟨x, xs, rfl⟩
  have hrfl : run_equity (q :: tl) (x :: xs) cash =
      (cumprod ((((0 : ℚ) * 0) :: List.zipWith (fun a b => a * b)
        ((x :: xs).dropLast)
        (List.zipWith (fun prev cur => cur / prev - 1) (q :: tl) tl)).map
          (fun r => 1 + r))).map (fun y => cash * y) := rfl
  rw [hrfl]
  simp only [zero_mul, add_zero, cumprod, List.map_cons]
  rw [map_mul_mul]
  simp only [mul_one]
  exact congrArg (List.cons cash)
    (cumprod_zip_eq_compoundList tl ((x :: xs).dropLast) q cash)

/-- State correspondence for the bookkeeping loop: with positive bar prices,
binary lagged positions, nonnegative units/cash, and the trading invariant
(flat with `units = 0`, or fully invested with `cash = 0`), the loop emits
the compounding path whose exposure at each pair is the *previous* pair's
position (`prevPos` for the first pair): the loop trades at the current bar's
price, so each position takes effect one bar later. -/
lemma bkLoop_eq_compoundList :
    ∀ (pairs : List (ℚ × ℚ)) (units cash q prevPos : ℚ),
      (∀ pp ∈ pairs, 0 < pp.1 ∧ (pp.2 = 0 ∨ pp.2 = 1)) →
      0 < q → 0 ≤ units → 0 ≤ cash →
      ((prevPos = 0 ∧ units = 0) ∨ (prevPos = 1 ∧ cash = 0)) →
      bkLoop pairs units cash =
        compoundList q (cash + units * q)
          ((pairs.map Prod.fst).zip (prevPos :: (pairs.map Prod.snd).dropLast)) := by
  intro pairs
  induction pairs with
  | nil =>
    intro units cash q prevPos hpp hq hu hc hinv
    simp [bkLoop, compoundList]
  | cons hd rest ih =>
    obtain ⟨p, pos⟩ := hd
    intro units cash q prevPos hpp hq hu hc hinv
    obtain ⟨hp, hposbin⟩ := hpp (p, pos) (List.mem_cons_self _ _)
    simp only at hp hposbin
    have hrest : ∀ pp ∈ rest, 0 < pp.1 ∧ (pp.2 = 0 ∨ pp.2 = 1) :=
      fun pp hppmem => hpp pp (List.mem_cons_of_mem _ hppmem)
    have hpne : p ≠ 0 := ne_of_gt hp
    have hzip : ((p :: rest.map Prod.fst)).zip
        (prevPos :: (pos :: rest.map Prod.snd).dropLast) =
        (p, prevPos) :: (rest.map Prod.fst).zip (pos :: (rest.map Prod.snd).dropLast) := by
      cases rest with
      | nil => rfl
      | cons r rs =>
        simp only [List.map_cons, List.dropLast_cons₂, List.zip_cons_cons]
    simp only [List.map_cons]
    rw [hzip]
    rw [show compoundList q (cash + units * q)
      ((p, prevPos) :: (rest.map Prod.fst).zip (pos :: (rest.map Prod.snd).dropLast)) =
      (cash + units * q) * (1 + prevPos * (p / q - 1)) ::
        compoundList p ((cash + units * q) * (1 + prevPos * (p / q - 1)))
          ((rest.map Prod.fst).zip (pos :: (rest.map Prod.snd).dropLast)) from rfl]
    by_cases hb1 : pos ≠ 0 ∧ units = 0
    · -- enter long (or stay flat with zero equity)
      have hpos1 : pos = 1 := by
        rcases hposbin with h | h
        · exact absurd h hb1.1
        · exact h
      have hE2 : (cash + units * q) * (1 + prevPos * (p / q - 1)) = cash := by
        rcases hinv with ⟨hpv, hun⟩ | ⟨hpv, hcz⟩
        · rw [hpv, hb1.2]; ring
        · rw [hpv, hcz, hb1.2]; ring
      rw [show bkLoop ((p, pos) :: rest) units cash =
        (0 + cash / p * p) :: bkLoop rest (cash / p) 0 by
          simp only [bkLoop, if_pos hb1]]
      rw [ih (cash / p) 0 p pos hrest hp (div_nonneg hc (le_of_lt hp))
        le_rfl (Or.inr ⟨hpos1, rfl⟩)]
      have hhead : 0 + cash / p * p = cash := by
        rw [div_mul_cancel₀ cash hpne]; ring
      rw [hE2, hhead]
    · by_cases hb2 : pos = 0 ∧ 0 < units
      · -- exit long
        have hinv2 : prevPos = 1 ∧ cash = 0 := by
          rcases hinv with ⟨hpv, hun⟩ | h
          · exact absurd hun (ne_of_gt hb2.2)
          · exact h
        have hE2 : (cash + units * q) * (1 + prevPos * (p / q - 1)) = units * p := by
          rw [hinv2.1, hinv2.2]
          field_simp
          ring
        rw [show bkLoop ((p, pos) :: rest) units cash =
          (units * p + 0 * p) :: bkLoop rest 0 (units * p) by
            simp only [bkLoop, if_neg hb1, if_pos hb2]]
        rw [ih 0 (units * p) p pos hrest hp le_rfl
          (mul_nonneg hu (le_of_lt hp)) (Or.inl ⟨hb2.1, rfl⟩)]
        have hhead : units * p + 0 * p = units * p := by ring
        rw [hE2, hhead]
      · -- hold (flat or invested)
        rw [show bkLoop ((p, pos) :: rest) units cash =
          (cash + units * p) :: bkLoop rest units cash by
            simp only [bkLoop, if_neg hb1, if_neg hb2]]
        rcases hposbin with hpos0 | hpos1
        · -- flat: pos = 0 and units must be 0
          have hun : units = 0 := by
            rcases le_or_lt units 0 with h | h
            · linarith
            · exact absurd ⟨hpos0, h⟩ hb2
          have hE2 : (cash + units * q) * (1 + prevPos * (p / q - 1)) = cash := by
            rcases hinv with ⟨hpv, _⟩ | ⟨hpv, hcz⟩
            · rw [hpv, hun]; ring
            · rw [hpv, hcz, hun]; ring
          rw [ih units cash p pos hrest hp hu hc (Or.inl ⟨hpos0, hun⟩)]
          rw [hE2, hun]
          have h1 : cash + (0 : ℚ) * p = cash := by ring
          rw [h1]
        · -- invested: pos = 1, so units ≠ 0, hence fully invested
          have hun : units ≠ 0 := by
            intro h
            exact hb1 ⟨by rw [hpos1]; norm_num, h⟩
          have hinv2 : prevPos = 1 ∧ cash = 0 := by
            rcases hinv with ⟨_, hu0⟩ | h
            · exact absurd hu0 hun
            · exact h
          have hE2 : (cash + units * q) * (1 + prevPos * (p / q - 1)) = units * p := by
            rw [hinv2.1, hinv2.2]
            field_simp
            ring
          rw [ih units cash p pos hrest hp hu hc (Or.inr ⟨hpos1, hinv2.2⟩)]
          rw [hE2, hinv2.2]
          have h1 : (0 : ℚ) + units * p = units * p := by ring
          rw [h1]

lemma zip_dropLast_zero (tl L : List ℚ) (h : L.length = tl.length) :
    tl.zip (((0 : ℚ) :: L).dropLast) = tl.zip ((0 : ℚ) :: L.dropLast) := by
  cases tl with
  | nil => simp
  | cons t ts =>
    cases L with
    | nil => simp at h
    | cons a as => rw [List.dropLast_cons₂]

/-- C8 counterexample: on prices `[100, 110, 121]`, the all-long binary
position series `[1, 1, 1]` and cash `1000`, the unit/cash bookkeeping
simulation (`equity_sma_cross`' loop, which buys at the *current* bar's price
after the one-bar signal shift) produces `[1000, 1000, 1100]`, while the
returns-compounding simulation (`run_backtest`) produces
`[1000, 1100, 1210]`: the two formulations do not yield the same equity
path. -/
theorem C8_bookkeeping_refinement_counterexample :
    bookkeep_equity [100, 110, 121] [1, 1, 1] 1000 = [1000, 1000, 1100] ∧
    run_equity [100, 110, 121] [1, 1, 1] 1000 = [1000, 1100, 1210] ∧
    ([1000, 1000, 1100] : List ℚ) ≠ [1000, 1100, 1210] := by
  refine ⟨?_, ?_, by norm_num⟩
  · norm_num [bookkeep_equity, equity_sma_cross_loop, bkLoop, shift1]
  · norm_num [run_equity, strat_ret, shift1, pct_change_fill0, cumprod]

/-- C8 (amended): for binary positions, positive prices and nonnegative
initial cash, the bookkeeping simulation equals the returns-compounding
simulation applied to the position series *delayed by one extra bar*
(`shift1 pos`), not to `pos` itself: the loop trades at the current bar's
close after the signal shift, so each position takes effect one bar later
than in the compounding formulation. -/
theorem C8_bookkeeping_refinement_amended (price pos : List ℚ) (cash : ℚ)
    (hlen : pos.length = price.length) (hn : 1 ≤ price.length)
    (hprice : ∀ p ∈ price, 0 < p) (hbin : ∀ x ∈ pos, x = 0 ∨ x = 1)
    (hcash : 0 ≤ cash) :
    bookkeep_equity price pos cash = run_equity price (shift1 pos) cash := by
  obtain ⟨q, tl, rfl⟩ : ∃ q tl, price = q :: tl := by
    cases price with
    | nil => simp at hn
    | cons q tl => exact ⟨q, tl, rfl⟩
  obtain ⟨x, xs, rfl⟩ : ∃ x xs, pos = x :: xs := by
    cases pos with
    | nil => simp at hlen
    | cons x xs => exact ⟨x, xs, rfl⟩
  have hq : 0 < q := hprice q (List.mem_cons_self _ _)
  have hsne : shift1 (x :: xs) ≠ [] := by simp [shift1]
  rw [run_equity_eq_compoundList q tl (shift1 (x :: xs)) cash hsne]
  have hL : ((x :: xs).dropLast).length = tl.length := by
    simp only [List.length_cons] at hlen
    simp [List.length_dropLast]
    omega
  have hpairs : ∀ pp ∈ tl.zip ((x :: xs).dropLast),
      0 < pp.1 ∧ (pp.2 = 0 ∨ pp.2 = 1) := by
    intro pp hpp
    obtain ⟨h1, h2⟩ := List.of_mem_zip hpp
    refine ⟨hprice pp.1 (List.mem_cons_of_mem q h1), hbin pp.2 ?_⟩
    exact List.dropLast_subset _ h2
  have hbk := bkLoop_eq_compoundList (tl.zip ((x :: xs).dropLast)) 0 cash q 0
    hpairs hq le_rfl hcash (Or.inl ⟨rfl, rfl⟩)
  have hfst : (tl.zip ((x :: xs).dropLast)).map Prod.fst = tl :=
    List.map_fst_zip tl ((x :: xs).dropLast) (le_of_eq hL.symm)
  have hsnd : (tl.zip ((x :: xs).dropLast)).map Prod.snd = (x :: xs).dropLast :=
    List.map_snd_zip tl ((x :: xs).dropLast) (le_of_eq hL)
  rw [hfst, hsnd] at hbk
  have hcash0 : cash + 0 * q = cash := by ring
  rw [hcash0] at hbk
  show cash :: bkLoop (tl.zip ((x :: xs).dropLast)) 0 cash =
    cash :: compoundList q cash (tl.zip ((shift1 (x :: xs)).dropLast))
  rw [hbk]
  rw [show (shift1 (x :: xs)).dropLast = ((0 : ℚ) :: (x :: xs).dropLast).dropLast
    from rfl]
  rw [zip_dropLast_zero tl ((x :: xs).dropLast) hL]

/-- Concrete instance of `C8_bookkeeping_refinement_amended` on prices
`[1, 2]`, positions `[1, 1]`, cash `1`. -/
theorem C8_bookkeeping_refinement_amended_witness :
    bookkeep_equity [1, 2] [1, 1] 1 = run_equity [1, 2] (shift1 [1, 1]) 1 :=
  C8_bookkeeping_refinement_amended [1, 2] [1, 1] 1 rfl (by norm_num)
    (by intro p hp; fin_cases hp <;> norm_num)
    (by intro x hx; fin_cases hx <;> norm_num)
    (by norm_num)

end Alphagini
